import Mathlib

/-!
Verification of the progress-and-achievement evaluation engine of the ODY
commit-gamification app.  The definitions below are a shallow embedding of
the Python sources: `main.py` (commit scoring, commit scanner, achievement
evaluator inside `update_progress`) and `web_dashboard.py` (rank table and
rank resolvers).  State is passed explicitly; the remote save is modelled
by the `Option` result of `update_progress` (`none` means the function
returned early, so no save was issued and no state changed).
-/

namespace ODY

/-- A commit as observed by the tracker: identifier (`hexsha`), message
text, number of changed files (`len(commit.stats.files)`), the hour of the
committed datetime, and its calendar date encoded as a day number so that
consecutive days differ by one. -/
structure Commit where
  hexsha : String
  message : String
  files_changed : Nat
  hour : Nat
  date : Int
deriving DecidableEq

/-- Message-length bonus of `calculate_commit_points`:
`min(message_length // 10, 50)`. -/
def message_length_bonus (c : Commit) : Nat :=
  min (c.message.length / 10) 50

/-- Time-of-day bonus of `calculate_commit_points`: `+20` if the commit
hour is before 9, else `+20` if it is 21 or later, else `0`. -/
def time_bonus (c : Commit) : Nat :=
  if c.hour < 9 then 20
  else if 21 ≤ c.hour then 20
  else 0

/-- Point score of a single commit (`calculate_commit_points` in
`main.py`): 50 base points, the message-length bonus, 5 points per changed
file, and the time-of-day bonus. -/
def calculate_commit_points (c : Commit) : Nat :=
  50 + message_length_bonus c + c.files_changed * 5 + time_bonus c

/-- Index of the first commit whose identifier equals `lid`, scanning the
newest-first list; models `next(i for i, c in enumerate(all_commits) if
c.hexsha == ...)` together with its `StopIteration` fallback (`none`). -/
def findCommitIndex (lid : String) : List Commit → Option Nat
  | [] => none
  | c :: rest =>
    if c.hexsha = lid then some 0
    else (findCommitIndex lid rest).map (· + 1)

/-- The commit scanner of `update_progress` (lines 144-152 of `main.py`):
with no checkpoint (or a falsy empty-string checkpoint) all commits are
new; with a checkpoint found at index `i` the strict prefix of the `i`
newer commits is new; with a checkpoint that is not found the whole
history is rescanned. -/
def findNewCommits (all_commits : List Commit) (last_processed : Option String) :
    List Commit :=
  match last_processed with
  | none => all_commits
  | some lid =>
    if lid = "" then all_commits
    else
      match findCommitIndex lid all_commits with
      | some i => all_commits.take i
      | none => all_commits

/-- The `user_progress` record of the persisted user data. -/
structure UserProgress where
  total_points : Nat
  commits_count : Nat
  lines_added : Nat
  lines_deleted : Nat
  last_updated : String
  last_processed_commit : Option String
deriving DecidableEq

/-- One persisted achievement record; `unlocked_at = none` means locked. -/
structure AchRecord where
  name : String
  description : String
  points : Nat
  unlocked_at : Option String
deriving DecidableEq

/-- The full persisted user document. -/
structure UserData where
  username : String
  achievements : List AchRecord
  user_progress : UserProgress
deriving DecidableEq

/-- One entry of the hard-coded achievement catalog `ACHIEVEMENTS`. -/
structure CatalogEntry where
  id : String
  name : String
  description : String
  points : Nat
deriving DecidableEq

/-- The achievement catalog of `main.py`, in definition order. -/
def ACHIEVEMENTS : List CatalogEntry := [
  ⟨"first_commit", "First Commit", "Make your first commit", 100⟩,
  ⟨"commit_master", "Commit Master", "Make 10 commits", 500⟩,
  ⟨"commit_enthusiast", "Commit Enthusiast", "Make 5 commits in a single day", 300⟩,
  ⟨"commit_streak", "Commit Streak", "Make commits for 3 consecutive days", 400⟩,
  ⟨"message_pro", "Message Pro", "Write a commit message longer than 100 characters", 200⟩,
  ⟨"multi_file", "Multi-file Master", "Modify 3 or more files in a single commit", 250⟩,
  ⟨"early_bird", "Early Bird", "Make a commit before 9 AM", 150⟩,
  ⟨"night_owl", "Night Owl", "Make a commit after 9 PM", 150⟩]

/-- The sorted list of distinct commit dates, modelling
`sorted(set(c.date() for c in commit_times))`. -/
def sorted_dates (cs : List Commit) : List Int :=
  List.insertionSort (· ≤ ·) ((cs.map Commit.date).dedup)

/-- The streak scan of `update_progress` (lines 211-217): some window of
three consecutive entries of the sorted distinct dates has day gaps of
exactly one twice in a row. -/
def hasStreak : List Int → Bool
  | d1 :: d2 :: d3 :: rest =>
    (decide (d2 - d1 = 1) && decide (d3 - d2 = 1)) || hasStreak (d2 :: d3 :: rest)
  | _ => false

/-- The unlock predicate of each achievement, dispatched on the catalog
identifier exactly as the `elif` chain of `update_progress` does; the
predicates read the full commit history and the already-updated
`commits_count`. -/
def checkPredicate (aid : String) (all_commits : List Commit) (commits_count : Nat) :
    Bool :=
  if aid = "first_commit" then decide (1 ≤ commits_count)
  else if aid = "commit_master" then decide (10 ≤ commits_count)
  else if aid = "commit_enthusiast" then
    all_commits.any (fun c => decide (5 ≤ (all_commits.map Commit.date).count c.date))
  else if aid = "commit_streak" then hasStreak (sorted_dates all_commits)
  else if aid = "message_pro" then
    all_commits.any (fun c => decide (100 < c.message.length))
  else if aid = "multi_file" then
    all_commits.any (fun c => decide (3 ≤ c.files_changed))
  else if aid = "early_bird" then all_commits.any (fun c => decide (c.hour < 9))
  else if aid = "night_owl" then all_commits.any (fun c => decide (21 ≤ c.hour))
  else false

/-- Names of the achievements recorded as unlocked, modelling the set
comprehension `{a['name'] for a in data['achievements'] if a.get('unlocked_at')}`. -/
def unlockedNamesOf (achs : List AchRecord) : List String :=
  (achs.filter (fun a => a.unlocked_at.isSome)).map (fun a => a.name)

/-- In-place unlock of the first record carrying the given name, modelling
the Python mutation `achievement['unlocked_at'] = datetime.now().isoformat()`. -/
def unlockFirstNamed (nm now : String) : List AchRecord → List AchRecord
  | [] => []
  | a :: rest =>
    if a.name = nm then { a with unlocked_at := some now } :: rest
    else a :: unlockFirstNamed nm now rest

/-- One iteration of the achievement loop of `update_progress` for the
catalog entry `e`, acting on the pair (achievement records, running point
total): skip when the display name is already in the unlocked-name set;
otherwise find the record by name (creating it, locked, when absent) and,
when it is locked and its predicate holds, unlock it and add its points. -/
def applyAchievement (cs : List Commit) (count : Nat) (now : String)
    (unlocked_names : List String) (st : List AchRecord × Nat) (e : CatalogEntry) :
    List AchRecord × Nat :=
  if e.name ∈ unlocked_names then st
  else
    match st.1.find? (fun a => decide (a.name = e.name)) with
    | some a =>
      if a.unlocked_at.isSome then st
      else if checkPredicate e.id cs count then
        (unlockFirstNamed e.name now st.1, st.2 + a.points)
      else st
    | none =>
      if checkPredicate e.id cs count then
        (st.1 ++ [⟨e.name, e.description, e.points, some now⟩], st.2 + e.points)
      else
        (st.1 ++ [⟨e.name, e.description, e.points, none⟩], st.2)

/-- The full achievement-evaluation pass of `update_progress` (lines
176-237): the unlocked-name set is computed once, then the catalog is
folded over in definition order. -/
def evaluateAchievements (cs : List Commit) (count : Nat) (now : String)
    (achs : List AchRecord) (total : Nat) : List AchRecord × Nat :=
  ACHIEVEMENTS.foldl (applyAchievement cs count now (unlockedNamesOf achs)) (achs, total)

/-- Sum of the scores of the new commits (`new_points` accumulation). -/
def sumNewPoints (l : List Commit) : Nat :=
  l.foldl (fun acc c => acc + calculate_commit_points c) 0

/-- The pure core of one `update_progress` cycle.  `none` models the early
return on an empty new-commit set: nothing is recomputed, nothing is saved.
Otherwise the returned data is what the function posts to the API: the
checkpoint becomes the head of the new commits, the commit count is
overwritten with the full history length, the new commits are scored, the
timestamp is bumped, and the achievement pass runs on the full history. -/
def update_progress (data : UserData) (all_commits : List Commit) (now : String) :
    Option UserData :=
  match findNewCommits all_commits data.user_progress.last_processed_commit with
  | [] => none
  | first :: rest =>
    let new_total := data.user_progress.total_points + sumNewPoints (first :: rest)
    let st := evaluateAchievements all_commits all_commits.length now
      data.achievements new_total
    some { data with
      achievements := st.1,
      user_progress := {
        total_points := st.2,
        commits_count := all_commits.length,
        lines_added := data.user_progress.lines_added,
        lines_deleted := data.user_progress.lines_deleted,
        last_updated := now,
        last_processed_commit := some first.hexsha } }

/-- The state a caller observes after one cycle: the posted data when a
save happened, the unchanged input data otherwise. -/
def runCycle (data : UserData) (all_commits : List Commit) (now : String) : UserData :=
  (update_progress data all_commits now).getD data

/-- One entry of the rank table of `web_dashboard.py`. -/
structure Rank where
  name : String
  points_required : Nat
  emoji : String
deriving DecidableEq

/-- The rank table `RANKS`, in dictionary insertion order. -/
def RANKS : List Rank := [
  ⟨"Cardboard", 0, "📦"⟩,
  ⟨"Bronze", 1000, "🥉"⟩,
  ⟨"Silver", 2500, "🥈"⟩,
  ⟨"Gold", 5000, "🥇"⟩,
  ⟨"Platinum", 10000, "💠"⟩,
  ⟨"Diamond", 20000, "💎"⟩,
  ⟨"Champion", 35000, "🏆"⟩,
  ⟨"Wizard", 50000, "🧙"⟩,
  ⟨"Mastermind", 75000, "🧠"⟩]

/-- The current rank (`get_current_rank`): scan the table in order keeping
the last rank whose threshold is met, starting from the cardboard entry. -/
def get_current_rank (points : Nat) : Rank :=
  RANKS.foldl (fun cur r => if r.points_required ≤ points then r else cur)
    ⟨"Cardboard", 0, "📦"⟩

/-- The next rank (`get_next_rank`): the first entry of the table sorted by
threshold whose threshold strictly exceeds the points, if any. -/
def get_next_rank (points : Nat) : Option Rank :=
  (List.insertionSort (fun a b => a.points_required ≤ b.points_required) RANKS).find?
    (fun r => decide (points < r.points_required))

/-- A 120-character commit message, for the worked example of the spec. -/
def msg120 : String :=
  "aaaaaaaaaaaaaaaaaaaaaaaaaaaaaaaaaaaaaaaaaaaaaaaaaaaaaaaaaaaaaaaaaaaaaaaaaaaaaaaaaaaaaaaaaaaaaaaaaaaaaaaaaaaaaaaaaaaaaaaa"

/-- The example commit of the spec: message length 120, 4 files, hour 22. -/
def exCommit : Commit := ⟨"c1", msg120, 4, 22, 0⟩

/-- A fresh user document: no achievements, all-zero progress, no checkpoint. -/
def exData : UserData := ⟨"u", [], ⟨0, 0, 0, 0, "t0", none⟩⟩

/-- Concrete two-commit history used to instantiate scanner theorems. -/
def caW : Commit := ⟨"a", "m", 1, 10, 0⟩

/-- Second commit of the concrete history. -/
def cbW : Commit := ⟨"b", "m", 1, 10, 0⟩

/-- A daytime commit used to instantiate scoring theorems. -/
def cW3 : Commit := ⟨"w", "hello", 2, 12, 0⟩

/-- User document whose checkpoint is already the head commit `caW`. -/
def dHold : UserData := ⟨"u", [], ⟨500, 1, 0, 0, "t0", some "a"⟩⟩

/-- Three commits on three consecutive dates. -/
def csStreak : List Commit := [⟨"s1", "m", 1, 10, 0⟩, ⟨"s2", "m", 1, 10, 1⟩, ⟨"s3", "m", 1, 10, 2⟩]

/-- Two commits whose dates leave a one-day gap. -/
def csGap : List Commit := [⟨"g1", "m", 1, 10, 0⟩, ⟨"g2", "m", 1, 10, 2⟩]

/-- User document that has already recorded 5 commits but no checkpoint. -/
def dCount : UserData := ⟨"u", [], ⟨0, 5, 0, 0, "t0", none⟩⟩

/-- Some stored record carries the given display name. -/
def hasRecordNamed (achs : List AchRecord) (nm : String) : Prop :=
  ∃ a ∈ achs, a.name = nm

/-- Some stored record carries the given display name and is unlocked. -/
def hasUnlockedNamed (achs : List AchRecord) (nm : String) : Prop :=
  ∃ a ∈ achs, a.name = nm ∧ a.unlocked_at.isSome = true

/-- A catalog entry is settled in a record list: its record exists, and
either some record of that name is unlocked or its predicate is false.
Settled entries are exactly the ones a further evaluation pass skips. -/
def settledFor (cs : List Commit) (count : Nat) (achs : List AchRecord)
    (e : CatalogEntry) : Prop :=
  hasRecordNamed achs e.name ∧
    (hasUnlockedNamed achs e.name ∨ checkPredicate e.id cs count = false)

theorem findCommitIndex_eq_none {lid : String} {l : List Commit}
    (h : ∀ c ∈ l, c.hexsha ≠ lid) : findCommitIndex lid l = none := by
  induction l with
  | nil => rfl
  | cons c rest ih =>
    have hc : ¬(c.hexsha = lid) := h c (by simp)
    rw [findCommitIndex, if_neg hc, ih (fun cc hcc => h cc (by simp [hcc]))]
    rfl

theorem findCommitIndex_get {l : List Commit} (hnd : (l.map Commit.hexsha).Nodup) :
    ∀ {n : Nat} (hn : n < l.length),
      findCommitIndex ((l.get ⟨n, hn⟩).hexsha) l = some n := by
  induction l with
  | nil => intro n hn; simp at hn
  | cons c rest ih =>
    intro n hn
    rw [List.map_cons, List.nodup_cons] at hnd
    cases n with
    | zero => simp [findCommitIndex]
    | succ m =>
      have hm : m < rest.length := by simpa using hn
      have hget : (c :: rest).get ⟨m + 1, hn⟩ = rest.get ⟨m, hm⟩ := rfl
      have hmem : (rest.get ⟨m, hm⟩).hexsha ∈ rest.map Commit.hexsha :=
        List.mem_map_of_mem _ (rest.get_mem _ _)
      have hne : ¬(c.hexsha = (rest.get ⟨m, hm⟩).hexsha) := by
        intro he; exact hnd.1 (he ▸ hmem)
      rw [hget, findCommitIndex, if_neg hne, ih hnd.2 hm]
      rfl

/-- C1: on a history with pairwise-distinct identifiers, `findNewCommits`
returns the entire history for a null or empty checkpoint, returns the
entire history for a checkpoint that occurs nowhere, and for a checkpoint
equal to the identifier of the commit at zero-based index `n` (the
`(n+1)`-th commit) returns exactly the `n` strictly newer commits. -/
theorem C1_commit_scanner (l : List Commit) (hnd : (l.map Commit.hexsha).Nodup) :
    findNewCommits l none = l ∧
    findNewCommits l (some "") = l ∧
    (∀ lid : String, lid ∉ l.map Commit.hexsha → findNewCommits l (some lid) = l) ∧
    (∀ (n : Nat) (hn : n < l.length), (l.get ⟨n, hn⟩).hexsha ≠ "" →
      findNewCommits l (some ((l.get ⟨n, hn⟩).hexsha)) = l.take n) := by
  refine ⟨rfl, by simp [findNewCommits], ?_, ?_⟩
  · intro lid hlid
    by_cases h0 : lid = ""
    · simp [findNewCommits, h0]
    · have hnone : findCommitIndex lid l = none :=
        findCommitIndex_eq_none (fun c hc he => hlid (he ▸ List.mem_map_of_mem _ hc))
      simp [findNewCommits, h0, hnone]
  · intro n hn hne
    have hidx := findCommitIndex_get hnd hn
    simp only [findNewCommits]
    rw [if_neg hne, hidx]

/-- Witness for C1 at a concrete two-commit history. -/
theorem C1_commit_scanner_witness :
    findNewCommits [caW, cbW] (some "b") = [caW] ∧
      findNewCommits [caW, cbW] none = [caW, cbW] := by
  have h := C1_commit_scanner [caW, cbW] (by decide)
  exact ⟨h.2.2.2 1 (by decide) (by decide), h.1⟩

/-- C3: the scoring function is deterministic, non-negative, its
message-length bonus is capped at 50, and the time bonus contributes at
most one `+20` because the early and late conditions exclude each other. -/
theorem C3_score_function (c1 c2 c : Commit) :
    (c1 = c2 → calculate_commit_points c1 = calculate_commit_points c2) ∧
    0 ≤ calculate_commit_points c ∧
    message_length_bonus c ≤ 50 ∧
    time_bonus c ≤ 20 ∧
    ¬(c.hour < 9 ∧ 21 ≤ c.hour) := by
  refine ⟨fun h => by rw [h], Nat.zero_le _, min_le_right _ _, ?_, by omega⟩
  unfold time_bonus
  split_ifs <;> omega

/-- Witness for C3 at a concrete commit. -/
theorem C3_score_function_witness :
    calculate_commit_points cW3 = calculate_commit_points cW3 ∧
      message_length_bonus cW3 ≤ 50 :=
  ⟨(C3_score_function cW3 cW3 cW3).1 rfl, (C3_score_function cW3 cW3 cW3).2.2.1⟩

theorem update_progress_nil {data : UserData} {cs : List Commit} {now : String}
    (hfn : findNewCommits cs data.user_progress.last_processed_commit = []) :
    update_progress data cs now = none := by
  unfold update_progress
  rw [hfn]

theorem update_progress_cons {data : UserData} {cs : List Commit} {now : String}
    {first : Commit} {rest : List Commit}
    (hfn : findNewCommits cs data.user_progress.last_processed_commit = first :: rest) :
    update_progress data cs now =
      some { data with
        achievements := (evaluateAchievements cs cs.length now data.achievements
          (data.user_progress.total_points + sumNewPoints (first :: rest))).1,
        user_progress := {
          total_points := (evaluateAchievements cs cs.length now data.achievements
            (data.user_progress.total_points + sumNewPoints (first :: rest))).2,
          commits_count := cs.length,
          lines_added := data.user_progress.lines_added,
          lines_deleted := data.user_progress.lines_deleted,
          last_updated := now,
          last_processed_commit := some first.hexsha } } := by
  unfold update_progress
  rw [hfn]

theorem head?_of_findNewCommits {l : List Commit} {chk : Option String}
    {c : Commit} {cs : List Commit} (h : findNewCommits l chk = c :: cs) :
    l.head? = some c := by
  unfold findNewCommits at h
  split at h
  · rw [h]
    rfl
  · split_ifs at h with hl
    · rw [h]
      rfl
    · split at h
      · rename_i i hidx
        cases l with
        | nil => simp at h
        | cons x xs =>
          cases i with
          | zero => simp at h
          | succ j =>
            rw [List.take_succ_cons] at h
            injection h with h1 h2
            rw [List.head?_cons, h1]
      · rw [h]
        rfl

theorem applyAchievement_points_le (cs : List Commit) (count : Nat) (now : String)
    (uN : List String) (st : List AchRecord × Nat) (e : CatalogEntry) :
    st.2 ≤ (applyAchievement cs count now uN st e).2 := by
  unfold applyAchievement
  split
  · exact le_rfl
  · split
    · split
      · exact le_rfl
      · split
        · exact Nat.le_add_right _ _
        · exact le_rfl
    · split
      · exact Nat.le_add_right _ _
      · exact le_rfl

theorem foldl_applyAchievement_points_le (cs : List Commit) (count : Nat) (now : String)
    (uN : List String) (L : List CatalogEntry) :
    ∀ st : List AchRecord × Nat, st.2 ≤ (L.foldl (applyAchievement cs count now uN) st).2 := by
  induction L with
  | nil => intro st; exact le_rfl
  | cons e L ih =>
    intro st
    rw [List.foldl_cons]
    exact le_trans (applyAchievement_points_le cs count now uN st e) (ih _)

theorem evaluateAchievements_points_le (cs : List Commit) (count : Nat) (now : String)
    (achs : List AchRecord) (t : Nat) :
    t ≤ (evaluateAchievements cs count now achs t).2 :=
  foldl_applyAchievement_points_le cs count now (unlockedNamesOf achs) ACHIEVEMENTS (achs, t)

/-- C5: one full update cycle never decreases the cumulative total points:
commit scores and achievement awards are only ever added. -/
theorem C5_total_points_monotone (data : UserData) (cs : List Commit) (now : String) :
    data.user_progress.total_points ≤ (runCycle data cs now).user_progress.total_points := by
  cases hfn : findNewCommits cs data.user_progress.last_processed_commit with
  | nil =>
    rw [runCycle, update_progress_nil hfn]
    exact le_rfl
  | cons first rest =>
    rw [runCycle, update_progress_cons hfn, Option.getD_some]
    exact le_trans (Nat.le_add_right _ _)
      (evaluateAchievements_points_le cs cs.length now data.achievements _)

/-- C8: when the computed new-commit set is empty the cycle returns early:
no save is issued (`update_progress` is `none`) and the observable state
after the cycle is exactly the input state. -/
theorem C8_empty_frame (data : UserData) (cs : List Commit) (now : String)
    (h : findNewCommits cs data.user_progress.last_processed_commit = []) :
    update_progress data cs now = none ∧ runCycle data cs now = data := by
  refine ⟨update_progress_nil h, ?_⟩
  rw [runCycle, update_progress_nil h]
  rfl

/-- Witness for C8: the checkpoint already equals the only commit. -/
theorem C8_empty_frame_witness :
    update_progress dHold [caW] "T" = none ∧ runCycle dHold [caW] "T" = dHold :=
  C8_empty_frame dHold [caW] "T" (by decide)

/-- C9: every cycle that processes a non-empty new-commit set stores, as
the new checkpoint, the identifier of the head (newest commit) of the full
input history. -/
theorem C9_checkpoint_is_head (data : UserData) (cs : List Commit) (now : String)
    (d1 : UserData) (h : update_progress data cs now = some d1) :
    ∃ c, cs.head? = some c ∧ d1.user_progress.last_processed_commit = some c.hexsha := by
  cases hfn : findNewCommits cs data.user_progress.last_processed_commit with
  | nil =>
    rw [update_progress_nil hfn] at h
    exact absurd h (by simp)
  | cons first rest =>
    rw [update_progress_cons hfn] at h
    refine ⟨first, head?_of_findNewCommits hfn, ?_⟩
    rw [← Option.some.inj h]

/-- Witness for C9: a fresh user processing a one-commit history. -/
theorem C9_checkpoint_is_head_witness :
    ∃ c, [caW].head? = some c ∧
      ((update_progress exData [caW] "T").getD exData).user_progress.last_processed_commit =
        some c.hexsha :=
  C9_checkpoint_is_head exData [caW] "T" _ (by rfl)

/-- C10: every cycle that processes a non-empty new-commit set overwrites
the stored commit count with the length of the full input history (rather
than incrementing it), so a shorter history makes the count decrease. -/
theorem C10_commit_count_overwritten (data : UserData) (cs : List Commit) (now : String)
    (d1 : UserData) (h : update_progress data cs now = some d1) :
    d1.user_progress.commits_count = cs.length := by
  cases hfn : findNewCommits cs data.user_progress.last_processed_commit with
  | nil =>
    rw [update_progress_nil hfn] at h
    exact absurd h (by simp)
  | cons first rest =>
    rw [update_progress_cons hfn] at h
    rw [← Option.some.inj h]

/-- Witness for C10: a document that had counted 5 commits is overwritten
to the length 1 of the supplied history. -/
theorem C10_commit_count_overwritten_witness :
    ((update_progress dCount [caW] "T").getD dCount).user_progress.commits_count =
      [caW].length :=
  C10_commit_count_overwritten dCount [caW] "T" _ (by rfl)

theorem hasStreak_one (d : Int) : hasStreak [d] = false := rfl

theorem hasStreak_two (d e : Int) : hasStreak [d, e] = false := rfl

theorem hasStreak_cons3 (d1 d2 d3 : Int) (t : List Int) :
    hasStreak (d1 :: d2 :: d3 :: t) =
      ((decide (d2 - d1 = 1) && decide (d3 - d2 = 1)) || hasStreak (d2 :: d3 :: t)) := rfl

theorem hasStreak_tail {x : Int} {rest : List Int} (h : hasStreak rest = true) :
    hasStreak (x :: rest) = true := by
  cases rest with
  | nil => cases h
  | cons y t =>
    cases t with
    | nil => rw [hasStreak_one] at h; cases h
    | cons z t2 => rw [hasStreak_cons3, h, Bool.or_true]

theorem exists_of_hasStreak : ∀ {l : List Int}, hasStreak l = true →
    ∃ d : Int, d ∈ l ∧ d + 1 ∈ l ∧ d + 2 ∈ l := by
  intro l
  induction l with
  | nil => intro h; cases h
  | cons x rest ih =>
    intro h
    cases rest with
    | nil => rw [hasStreak_one] at h; cases h
    | cons y t =>
      cases t with
      | nil => rw [hasStreak_two] at h; cases h
      | cons z t2 =>
        rw [hasStreak_cons3] at h
        rcases (Bool.or_eq_true _ _).mp h with h1 | h2
        · rw [Bool.and_eq_true, decide_eq_true_eq, decide_eq_true_eq] at h1
          refine ⟨x, by simp, ?_, ?_⟩
          · rw [show x + 1 = y by omega]
            simp
          · rw [show x + 2 = z by omega]
            simp
        · obtain ⟨d, hd, hd1, hd2⟩ := ih h2
          exact ⟨d, List.mem_cons_of_mem _ hd, List.mem_cons_of_mem _ hd1,
            List.mem_cons_of_mem _ hd2⟩

theorem hasStreak_of_mem : ∀ {l : List Int}, l.Pairwise (· < ·) →
    ∀ {d : Int}, d ∈ l → d + 1 ∈ l → d + 2 ∈ l → hasStreak l = true := by
  intro l
  induction l with
  | nil => intro _ d h0; cases h0
  | cons x rest ih =>
    intro hp d h0 h1 h2
    have hpc := List.pairwise_cons.mp hp
    rcases List.mem_cons.mp h0 with rfl | h0r
    · have hx1 : d + 1 ∈ rest := by
        rcases List.mem_cons.mp h1 with he | hr
        · omega
        · exact hr
      have hx2 : d + 2 ∈ rest := by
        rcases List.mem_cons.mp h2 with he | hr
        · omega
        · exact hr
      cases rest with
      | nil => cases hx1
      | cons y t =>
        have hyt := List.pairwise_cons.mp hpc.2
        have hy : y = d + 1 := by
          rcases List.mem_cons.mp hx1 with he | hr
          · omega
          · have h3 := hyt.1 _ hr
            have h4 := hpc.1 y (by simp)
            omega
        have hx2t : d + 2 ∈ t := by
          rcases List.mem_cons.mp hx2 with he | hr
          · omega
          · exact hr
        cases t with
        | nil => cases hx2t
        | cons z t2 =>
          have hz : z = d + 2 := by
            rcases List.mem_cons.mp hx2t with he | hr
            · omega
            · have h5 := (List.pairwise_cons.mp hyt.2).1 _ hr
              have h6 := hyt.1 z (by simp)
              omega
          rw [hasStreak_cons3, Bool.or_eq_true, Bool.and_eq_true,
            decide_eq_true_eq, decide_eq_true_eq]
          exact Or.inl ⟨by omega, by omega⟩
    · have h1r : d + 1 ∈ rest := by
        rcases List.mem_cons.mp h1 with he | hr
        · have := hpc.1 d h0r
          omega
        · exact hr
      have h2r : d + 2 ∈ rest := by
        rcases List.mem_cons.mp h2 with he | hr
        · have := hpc.1 d h0r
          omega
        · exact hr
      exact hasStreak_tail (ih hpc.2 h0r h1r h2r)

theorem mem_sorted_dates {cs : List Commit} {x : Int} :
    x ∈ sorted_dates cs ↔ x ∈ cs.map Commit.date := by
  unfold sorted_dates
  rw [(List.perm_insertionSort _ _).mem_iff, List.mem_dedup]

theorem sorted_dates_strict (cs : List Commit) :
    (sorted_dates cs).Pairwise (· < ·) := by
  have h1 : (sorted_dates cs).Pairwise (· ≤ ·) := List.sorted_insertionSort _ _
  have h2 : (sorted_dates cs).Nodup :=
    (List.perm_insertionSort _ _).nodup_iff.mpr (List.nodup_dedup _)
  exact (h1.and h2).imp (fun h => lt_of_le_of_ne h.1 h.2)

/-- C6: for a history whose set of distinct commit dates is exactly
{D, D+1, D+2} the streak predicate fires, and for a history whose set of
distinct commit dates is exactly {D, D+2} it does not. -/
theorem C6_streak_predicate (cs csg : List Commit) (n ng : Nat) (D Dg : Int) :
    ((∀ x : Int, x ∈ cs.map Commit.date ↔ (x = D ∨ x = D + 1 ∨ x = D + 2)) →
      checkPredicate "commit_streak" cs n = true) ∧
    ((∀ x : Int, x ∈ csg.map Commit.date ↔ (x = Dg ∨ x = Dg + 2)) →
      checkPredicate "commit_streak" csg ng = false) := by
  have hcp : ∀ (l : List Commit) (m : Nat),
      checkPredicate "commit_streak" l m = hasStreak (sorted_dates l) := fun l m => rfl
  constructor
  · intro hmem
    rw [hcp]
    refine hasStreak_of_mem (sorted_dates_strict cs) (d := D) ?_ ?_ ?_
    · exact mem_sorted_dates.mpr ((hmem D).mpr (Or.inl rfl))
    · exact mem_sorted_dates.mpr ((hmem (D + 1)).mpr (Or.inr (Or.inl rfl)))
    · exact mem_sorted_dates.mpr ((hmem (D + 2)).mpr (Or.inr (Or.inr rfl)))
  · intro hmem
    rw [hcp]
    cases hst : hasStreak (sorted_dates csg) with
    | false => rfl
    | true =>
      obtain ⟨d, hd0, hd1, hd2⟩ := exists_of_hasStreak hst
      have m0 := (hmem d).mp (mem_sorted_dates.mp hd0)
      have m1 := (hmem (d + 1)).mp (mem_sorted_dates.mp hd1)
      have m2 := (hmem (d + 2)).mp (mem_sorted_dates.mp hd2)
      omega

/-- Witness for C6 at three consecutive dates and at a gapped pair. -/
theorem C6_streak_predicate_witness :
    checkPredicate "commit_streak" csStreak 3 = true ∧
      checkPredicate "commit_streak" csGap 2 = false := by
  have h := C6_streak_predicate csStreak csGap 3 2 0 0
  refine ⟨h.1 ?_, h.2 ?_⟩
  · intro x
    constructor
    · intro hx
      simp [csStreak] at hx
      omega
    · intro hx
      simp [csStreak]
      omega
  · intro x
    constructor
    · intro hx
      simp [csGap] at hx
      omega
    · intro hx
      simp [csGap]
      omega

theorem mem_unlockedNamesOf {achs : List AchRecord} {nm : String} :
    nm ∈ unlockedNamesOf achs ↔ hasUnlockedNamed achs nm := by
  unfold unlockedNamesOf hasUnlockedNamed
  constructor
  · intro h
    obtain ⟨a, ha, rfl⟩ := List.mem_map.mp h
    have hf := List.mem_filter.mp ha
    exact ⟨a, hf.1, rfl, hf.2⟩
  · rintro ⟨a, ha, hn, hu⟩
    exact List.mem_map.mpr ⟨a, List.mem_filter.mpr ⟨ha, hu⟩, hn⟩

theorem find?_name_eq_some {l : List AchRecord} {nm : String}
    (h : hasRecordNamed l nm) :
    ∃ a, l.find? (fun a => decide (a.name = nm)) = some a := by
  obtain ⟨a, ha, hn⟩ := h
  induction l with
  | nil => cases ha
  | cons b rest ih =>
    by_cases hb : b.name = nm
    · exact ⟨b, by simp [List.find?_cons, hb]⟩
    · rcases List.mem_cons.mp ha with rfl | har
      · exact absurd hn hb
      · obtain ⟨c, hc⟩ := ih har
        exact ⟨c, by simp [List.find?_cons, hb, hc]⟩

theorem hasRecord_unlockFirstNamed {nm now m : String} :
    ∀ {l : List AchRecord}, hasRecordNamed l m →
      hasRecordNamed (unlockFirstNamed nm now l) m := by
  intro l
  induction l with
  | nil => intro h; obtain ⟨b, hb, _⟩ := h; cases hb
  | cons a rest ih =>
    rintro ⟨b, hb, hbn⟩
    unfold unlockFirstNamed
    by_cases ha : a.name = nm
    · rw [if_pos ha]
      rcases List.mem_cons.mp hb with rfl | hbr
      · exact ⟨{ b with unlocked_at := some now }, by simp, hbn⟩
      · exact ⟨b, List.mem_cons_of_mem _ hbr, hbn⟩
    · rw [if_neg ha]
      rcases List.mem_cons.mp hb with rfl | hbr
      · exact ⟨b, by simp, hbn⟩
      · obtain ⟨c, hc, hcn⟩ := ih ⟨b, hbr, hbn⟩
        exact ⟨c, List.mem_cons_of_mem _ hc, hcn⟩

theorem hasUnlocked_unlockFirstNamed {nm now m : String} :
    ∀ {l : List AchRecord}, hasUnlockedNamed l m →
      hasUnlockedNamed (unlockFirstNamed nm now l) m := by
  intro l
  induction l with
  | nil => intro h; obtain ⟨b, hb, _⟩ := h; cases hb
  | cons a rest ih =>
    rintro ⟨b, hb, hbn, hbu⟩
    unfold unlockFirstNamed
    by_cases ha : a.name = nm
    · rw [if_pos ha]
      rcases List.mem_cons.mp hb with rfl | hbr
      · exact ⟨{ b with unlocked_at := some now }, by simp, hbn, by simp⟩
      · exact ⟨b, List.mem_cons_of_mem _ hbr, hbn, hbu⟩
    · rw [if_neg ha]
      rcases List.mem_cons.mp hb with rfl | hbr
      · exact ⟨b, by simp, hbn, hbu⟩
      · obtain ⟨c, hc, hcn, hcu⟩ := ih ⟨b, hbr, hbn, hbu⟩
        exact ⟨c, List.mem_cons_of_mem _ hc, hcn, hcu⟩

theorem unlockFirstNamed_unlocks {nm now : String} :
    ∀ {l : List AchRecord}, hasRecordNamed l nm →
      hasUnlockedNamed (unlockFirstNamed nm now l) nm := by
  intro l
  induction l with
  | nil => intro h; obtain ⟨b, hb, _⟩ := h; cases hb
  | cons a rest ih =>
    intro h
    unfold unlockFirstNamed
    by_cases ha : a.name = nm
    · rw [if_pos ha]
      exact ⟨{ a with unlocked_at := some now }, by simp, ha, by simp⟩
    · rw [if_neg ha]
      obtain ⟨b, hb, hbn⟩ := h
      rcases List.mem_cons.mp hb with rfl | hbr
      · exact absurd hbn ha
      · obtain ⟨c, hc, hcn, hcu⟩ := ih ⟨b, hbr, hbn⟩
        exact ⟨c, List.mem_cons_of_mem _ hc, hcn, hcu⟩

theorem applyAchievement_record_mono {cs : List Commit} {count : Nat} {now : String}
    {uN : List String} {st : List AchRecord × Nat} {e : CatalogEntry} {m : String}
    (h : hasRecordNamed st.1 m) :
    hasRecordNamed (applyAchievement cs count now uN st e).1 m := by
  unfold applyAchievement
  split
  · exact h
  · split
    · split
      · exact h
      · split
        · exact hasRecord_unlockFirstNamed h
        · exact h
    · obtain ⟨b, hb, hbn⟩ := h
      split
      · exact ⟨b, List.mem_append_left _ hb, hbn⟩
      · exact ⟨b, List.mem_append_left _ hb, hbn⟩

theorem applyAchievement_unlocked_mono {cs : List Commit} {count : Nat} {now : String}
    {uN : List String} {st : List AchRecord × Nat} {e : CatalogEntry} {m : String}
    (h : hasUnlockedNamed st.1 m) :
    hasUnlockedNamed (applyAchievement cs count now uN st e).1 m := by
  unfold applyAchievement
  split
  · exact h
  · split
    · split
      · exact h
      · split
        · exact hasUnlocked_unlockFirstNamed h
        · exact h
    · obtain ⟨b, hb, hbn, hbu⟩ := h
      split
      · exact ⟨b, List.mem_append_left _ hb, hbn, hbu⟩
      · exact ⟨b, List.mem_append_left _ hb, hbn, hbu⟩

theorem applyAchievement_settles {cs : List Commit} {count : Nat} {now : String}
    {uN : List String} {st : List AchRecord × Nat} {e : CatalogEntry}
    (hInv : ∀ m ∈ uN, hasUnlockedNamed st.1 m) :
    settledFor cs count (applyAchievement cs count now uN st e).1 e := by
  unfold applyAchievement
  split
  · rename_i hmem
    obtain ⟨a, ha, hn, hau⟩ := hInv _ hmem
    exact ⟨⟨a, ha, hn⟩, Or.inl ⟨a, ha, hn, hau⟩⟩
  · split
    · rename_i a hfind
      have han : a.name = e.name := by simpa using List.find?_some hfind
      have ham : a ∈ st.1 := List.mem_of_find?_eq_some hfind
      split
      · rename_i hu
        exact ⟨⟨a, ham, han⟩, Or.inl ⟨a, ham, han, hu⟩⟩
      · split
        · exact ⟨hasRecord_unlockFirstNamed ⟨a, ham, han⟩,
            Or.inl (unlockFirstNamed_unlocks ⟨a, ham, han⟩)⟩
        · rename_i hpred
          exact ⟨⟨a, ham, han⟩, Or.inr (by simpa using hpred)⟩
    · split
      · exact ⟨⟨⟨e.name, e.description, e.points, some now⟩,
            List.mem_append_right _ (by simp), rfl⟩,
          Or.inl ⟨⟨e.name, e.description, e.points, some now⟩,
            List.mem_append_right _ (by simp), rfl, rfl⟩⟩
      · rename_i hpred
        exact ⟨⟨⟨e.name, e.description, e.points, none⟩,
            List.mem_append_right _ (by simp), rfl⟩,
          Or.inr (by simpa using hpred)⟩

theorem applyAchievement_settled_mono {cs : List Commit} {count : Nat} {now : String}
    {uN : List String} {st : List AchRecord × Nat} {e e0 : CatalogEntry}
    (h : settledFor cs count st.1 e0) :
    settledFor cs count (applyAchievement cs count now uN st e).1 e0 :=
  ⟨applyAchievement_record_mono h.1,
    h.2.imp (fun hu => applyAchievement_unlocked_mono hu) id⟩

theorem foldl_applyAchievement_settled_mono (cs : List Commit) (count : Nat)
    (now : String) (uN : List String) :
    ∀ (L : List CatalogEntry) (st : List AchRecord × Nat) (e0 : CatalogEntry),
      settledFor cs count st.1 e0 →
      settledFor cs count (L.foldl (applyAchievement cs count now uN) st).1 e0 := by
  intro L
  induction L with
  | nil => intro st e0 h; exact h
  | cons e L ih =>
    intro st e0 h
    rw [List.foldl_cons]
    exact ih _ _ (applyAchievement_settled_mono h)

theorem foldl_applyAchievement_settles (cs : List Commit) (count : Nat)
    (now : String) (uN : List String) :
    ∀ (L : List CatalogEntry) (st : List AchRecord × Nat),
      (∀ m ∈ uN, hasUnlockedNamed st.1 m) →
      ∀ e ∈ L, settledFor cs count (L.foldl (applyAchievement cs count now uN) st).1 e := by
  intro L
  induction L with
  | nil => intro st _ e he; cases he
  | cons e0 L ih =>
    intro st hInv e he
    rw [List.foldl_cons]
    rcases List.mem_cons.mp he with rfl | heL
    · exact foldl_applyAchievement_settled_mono cs count now uN L _ _
        (applyAchievement_settles hInv)
    · exact ih _ (fun m hm => applyAchievement_unlocked_mono (hInv m hm)) e heL

theorem applyAchievement_id_of_settled {cs : List Commit} {count : Nat} {now : String}
    {st : List AchRecord × Nat} {e : CatalogEntry}
    (hs : settledFor cs count st.1 e) :
    applyAchievement cs count now (unlockedNamesOf st.1) st e = st := by
  obtain ⟨hrec, hdisj⟩ := hs
  unfold applyAchievement
  split
  · rfl
  · rename_i hmem
    have hnu : ¬hasUnlockedNamed st.1 e.name := fun hu =>
      hmem (mem_unlockedNamesOf.mpr hu)
    have hpf : checkPredicate e.id cs count = false := hdisj.resolve_left hnu
    split
    · split
      · rfl
      · split
        · rename_i hp
          rw [hpf] at hp
          exact Bool.noConfusion hp
        · rfl
    · rename_i hfind
      obtain ⟨b, hfb⟩ := find?_name_eq_some hrec
      rw [hfind] at hfb
      cases hfb

theorem foldl_applyAchievement_id (cs : List Commit) (count : Nat) (now : String) :
    ∀ (L : List CatalogEntry) (st : List AchRecord × Nat),
      (∀ e ∈ L, settledFor cs count st.1 e) →
      L.foldl (applyAchievement cs count now (unlockedNamesOf st.1)) st = st := by
  intro L
  induction L with
  | nil => intro st _; rfl
  | cons e L ih =>
    intro st hAll
    rw [List.foldl_cons, applyAchievement_id_of_settled (hAll e (by simp))]
    exact ih st (fun e2 he2 => hAll e2 (List.mem_cons_of_mem _ he2))

/-- C4: the achievement-evaluation pass is idempotent: run a second time
on the same commit history and commit count, starting from the records and
total produced by the first pass (so every achievement unlocked by the
first pass is in the unlocked set), it unlocks nothing further and adds no
points, whatever timestamp the second run uses. -/
theorem C4_evaluator_idempotent (cs : List Commit) (count : Nat) (now now2 : String)
    (achs : List AchRecord) (t : Nat) :
    evaluateAchievements cs count now2
        (evaluateAchievements cs count now achs t).1
        (evaluateAchievements cs count now achs t).2 =
      evaluateAchievements cs count now achs t := by
  have hInv : ∀ m ∈ unlockedNamesOf achs, hasUnlockedNamed achs m :=
    fun m hm => mem_unlockedNamesOf.mp hm
  have hset : ∀ e ∈ ACHIEVEMENTS,
      settledFor cs count (evaluateAchievements cs count now achs t).1 e :=
    foldl_applyAchievement_settles cs count now (unlockedNamesOf achs) ACHIEVEMENTS
      (achs, t) hInv
  exact foldl_applyAchievement_id cs count now2 ACHIEVEMENTS
    ((evaluateAchievements cs count now achs t).1,
      (evaluateAchievements cs count now achs t).2)
    (fun e he => hset e he)

theorem insertionSort_RANKS :
    List.insertionSort (fun a b => a.points_required ≤ b.points_required) RANKS = RANKS := by
  decide

theorem get_current_rank_closed (p : Nat) :
    get_current_rank p =
      if 75000 ≤ p then ⟨"Mastermind", 75000, "🧠"⟩
      else if 50000 ≤ p then ⟨"Wizard", 50000, "🧙"⟩
      else if 35000 ≤ p then ⟨"Champion", 35000, "🏆"⟩
      else if 20000 ≤ p then ⟨"Diamond", 20000, "💎"⟩
      else if 10000 ≤ p then ⟨"Platinum", 10000, "💠"⟩
      else if 5000 ≤ p then ⟨"Gold", 5000, "🥇"⟩
      else if 2500 ≤ p then ⟨"Silver", 2500, "🥈"⟩
      else if 1000 ≤ p then ⟨"Bronze", 1000, "🥉"⟩
      else ⟨"Cardboard", 0, "📦"⟩ := by
  simp only [get_current_rank, RANKS, List.foldl_cons, List.foldl_nil]
  split_ifs <;> rfl

theorem get_next_rank_closed (p : Nat) :
    get_next_rank p =
      if p < 1000 then some ⟨"Bronze", 1000, "🥉"⟩
      else if p < 2500 then some ⟨"Silver", 2500, "🥈"⟩
      else if p < 5000 then some ⟨"Gold", 5000, "🥇"⟩
      else if p < 10000 then some ⟨"Platinum", 10000, "💠"⟩
      else if p < 20000 then some ⟨"Diamond", 20000, "💎"⟩
      else if p < 35000 then some ⟨"Champion", 35000, "🏆"⟩
      else if p < 50000 then some ⟨"Wizard", 50000, "🧙"⟩
      else if p < 75000 then some ⟨"Mastermind", 75000, "🧠"⟩
      else none := by
  unfold get_next_rank
  rw [insertionSort_RANKS]
  show List.find? _ RANKS = _
  simp only [RANKS]
  rw [List.find?_cons_of_neg _ (by simp)]
  by_cases h1 : p < 1000
  · rw [List.find?_cons_of_pos _ (by simp [h1]), if_pos h1]
  · rw [List.find?_cons_of_neg _ (by simp [h1]), if_neg h1]
    by_cases h2 : p < 2500
    · rw [List.find?_cons_of_pos _ (by simp [h2]), if_pos h2]
    · rw [List.find?_cons_of_neg _ (by simp [h2]), if_neg h2]
      by_cases h3 : p < 5000
      · rw [List.find?_cons_of_pos _ (by simp [h3]), if_pos h3]
      · rw [List.find?_cons_of_neg _ (by simp [h3]), if_neg h3]
        by_cases h4 : p < 10000
        · rw [List.find?_cons_of_pos _ (by simp [h4]), if_pos h4]
        · rw [List.find?_cons_of_neg _ (by simp [h4]), if_neg h4]
          by_cases h5 : p < 20000
          · rw [List.find?_cons_of_pos _ (by simp [h5]), if_pos h5]
          · rw [List.find?_cons_of_neg _ (by simp [h5]), if_neg h5]
            by_cases h6 : p < 35000
            · rw [List.find?_cons_of_pos _ (by simp [h6]), if_pos h6]
            · rw [List.find?_cons_of_neg _ (by simp [h6]), if_neg h6]
              by_cases h7 : p < 50000
              · rw [List.find?_cons_of_pos _ (by simp [h7]), if_pos h7]
              · rw [List.find?_cons_of_neg _ (by simp [h7]), if_neg h7]
                by_cases h8 : p < 75000
                · rw [List.find?_cons_of_pos _ (by simp [h8]), if_pos h8]
                · rw [List.find?_cons_of_neg _ (by simp [h8]), if_neg h8]
                  rfl

/-- C7: for every point total, `get_current_rank` returns a table entry
whose threshold is met and is the largest met threshold, and
`get_next_rank` returns a table entry with the smallest threshold strictly
above the total, or `none` exactly when the total reaches the top
threshold 75000. -/
theorem C7_rank_resolver (p : Nat) :
    (get_current_rank p ∈ RANKS ∧
      (get_current_rank p).points_required ≤ p ∧
      (∀ r ∈ RANKS, r.points_required ≤ p →
        r.points_required ≤ (get_current_rank p).points_required)) ∧
    ((get_next_rank p = none ↔ 75000 ≤ p) ∧
      (∀ r, get_next_rank p = some r → r ∈ RANKS ∧ p < r.points_required ∧
        ∀ r2 ∈ RANKS, p < r2.points_required →
          r.points_required ≤ r2.points_required)) := by
  refine ⟨?_, ?_, ?_⟩
  · rw [get_current_rank_closed]
    split_ifs <;> refine ⟨by decide, by dsimp only; omega, ?_⟩ <;>
      (intro r hr hle
       simp only [RANKS, List.mem_cons, List.not_mem_nil, or_false] at hr
       rcases hr with rfl | rfl | rfl | rfl | rfl | rfl | rfl | rfl | rfl <;>
         dsimp only at hle ⊢ <;> omega)
  · rw [get_next_rank_closed]
    split_ifs <;> simp <;> omega
  · intro r hr
    rw [get_next_rank_closed] at hr
    split_ifs at hr
    all_goals first
      | exact Option.noConfusion hr
      | (rw [← Option.some.inj hr]
         refine ⟨by decide, by dsimp only; omega, ?_⟩
         intro r2 hr2 hlt
         simp only [RANKS, List.mem_cons, List.not_mem_nil, or_false] at hr2
         rcases hr2 with rfl | rfl | rfl | rfl | rfl | rfl | rfl | rfl | rfl <;>
           dsimp only at hlt ⊢ <;> omega)

/-- Witness for C7 applied at a concrete point total. -/
theorem C7_rank_resolver_witness :
    (get_current_rank 1200).points_required ≤ 1200 ∧
      (get_next_rank 75000 = none ↔ 75000 ≤ 75000) :=
  ⟨(C7_rank_resolver 1200).1.2.1, (C7_rank_resolver 75000).2.1⟩

set_option maxRecDepth 4000 in
/-- C2 counterexample: for the spec's own example commit (message length
120, 4 files, hour 22) the score is 102, not 140, and one update cycle on
fresh data ends at 802 total points, not 840: the message-length bonus of
a 120-character message is `min(120 / 10, 50) = 12`, not 50. -/
theorem C2_example_counterexample :
    exCommit.message.length = 120 ∧
    calculate_commit_points exCommit = 102 ∧
    calculate_commit_points exCommit ≠ 140 ∧
    (update_progress exData [exCommit] "T").map
        (fun d => d.user_progress.total_points) ≠ some 840 := by
  decide

set_option maxRecDepth 4000 in
/-- C2 amended: for that input the commit scores 102; exactly
`first_commit`, `message_pro`, `multi_file` and `night_owl` unlock; the
total after unlocks is 802; the rank is Cardboard and the next rank is
Bronze, 198 points away. -/
theorem C2_example_amended :
    calculate_commit_points exCommit = 102 ∧
    (update_progress exData [exCommit] "T").map
        (fun d => (unlockedNamesOf d.achievements, d.user_progress.total_points)) =
      some (["First Commit", "Message Pro", "Multi-file Master", "Night Owl"], 802) ∧
    (get_current_rank 802).name = "Cardboard" ∧
    (get_next_rank 802).map Rank.name = some "Bronze" ∧
    (get_next_rank 802).map (fun r => r.points_required - 802) = some 198 := by
  decide

end ODY
